import Mathlib

/-!
Verification of the incremental UI tree engine of the `azul` repository.

The repository's `src/azul/src/lib.rs` only declares the core modules
(`id_tree`, `dom`, `style`, `ui_solver`, `text_cache`, ...); their bodies are
not part of the provided sources.  Every component below is therefore modelled
from the specification's description of that module, as noted in each
definition's doc comment.  Geometry is modelled over `ℚ` (the spec's single
floating-point unit, with the "floating-point tolerance" clause becoming exact
equality); possibly-invalid floating intermediates are modelled explicitly by
the `FloatVal` type.
-/

namespace Azul


/-- A flex item as seen by the main-axis distribution pass: its flex basis and
its flex-grow factor. -/
structure FlexChild where
  basis : ℚ
  grow : ℚ
deriving DecidableEq, Repr

/-- Sum of the flex bases of a list of children. -/
def totalBasis (cs : List FlexChild) : ℚ := (cs.map FlexChild.basis).sum

/-- Sum of the flex-grow factors of a list of children. -/
def totalGrow (cs : List FlexChild) : ℚ := (cs.map FlexChild.grow).sum

/-- Modelled from the spec: the body of the `ui_solver` module (declared in
`src/azul/src/lib.rs` but not included in the sources) — the top-down
distribution pass that "allocates remaining main-axis space according to
grow/shrink factors".  Each child starts from its flex basis; when there is
remaining space and a positive total grow factor, the remaining space is
distributed proportionally to the grow factors; otherwise every child keeps
its basis.  Sizes are clamped to be non-negative, as the spec's numeric
semantics require. -/
def distributeMain (available : ℚ) (cs : List FlexChild) : List ℚ :=
  let remaining := available - totalBasis cs
  if 0 < totalGrow cs ∧ 0 ≤ remaining then
    cs.map (fun c => max 0 (c.basis + remaining * c.grow / totalGrow cs))
  else
    cs.map (fun c => max 0 c.basis)

/-- A generational node identifier: slot index plus generation counter. -/
structure NodeId where
  index : Nat
  generation : Nat
deriving DecidableEq, Repr

/-- One storage slot of the node arena. -/
structure Slot where
  generation : Nat
  occupied : Bool
  kind : Nat
deriving DecidableEq, Repr

/-- Modelled from the spec: the node arena of the `id_tree` module (declared in
`src/azul/src/lib.rs` but not included in the sources) — "a pool of reusable,
identifier-addressed storage slots" with a free list. -/
structure Arena where
  slots : List Slot
  freeList : List Nat
deriving DecidableEq, Repr

/-- Modelled from the spec: dereferencing a `NodeId` checks index and
generation on every dereference, "returning a not-found/stale result rather
than undefined access". -/
def Arena.get (a : Arena) (id : NodeId) : Option Nat :=
  match a.slots[id.index]? with
  | some s =>
    if s.occupied ∧ s.generation = id.generation then some s.kind else none
  | none => none

/-- Modelled from the spec: "`free(id)` invalidates the slot and bumps its
generation so stale identifiers captured by callbacks fail safely rather than
aliasing a new node"; the freed index joins the free list.  Freeing an invalid
or stale identifier leaves the arena unchanged. -/
def Arena.free (a : Arena) (id : NodeId) : Arena :=
  match a.slots[id.index]? with
  | some s =>
    if s.occupied ∧ s.generation = id.generation then
      { slots := a.slots.set id.index
          { generation := s.generation + 1, occupied := false, kind := s.kind },
        freeList := id.index :: a.freeList }
    else a
  | none => a

/-- Modelled from the spec: "`allocate(kind, parent) -> NodeId` returns a fresh
or recycled slot"; a recycled slot keeps the generation that `free` bumped, so
the returned identifier carries the new generation. -/
def Arena.allocate (a : Arena) (kind : Nat) : NodeId × Arena :=
  match a.freeList with
  | [] =>
    (⟨a.slots.length, 0⟩,
     { slots := a.slots ++ [⟨0, true, kind⟩], freeList := [] })
  | i :: rest =>
    match a.slots[i]? with
    | some s =>
      (⟨i, s.generation⟩,
       { slots := a.slots.set i
           { generation := s.generation, occupied := true, kind := kind },
         freeList := rest })
    | none =>
      (⟨a.slots.length, 0⟩, { slots := a.slots ++ [⟨0, true, kind⟩], freeList := rest })

/-- An axis-aligned solved box: origin plus extent. -/
structure Rect where
  x : ℚ
  y : ℚ
  w : ℚ
  h : ℚ
deriving DecidableEq, Repr

/-- Whether the point `(px, py)` lies inside the rectangle. -/
def Rect.containsB (r : Rect) (px py : ℚ) : Bool :=
  decide (r.x ≤ px) && decide (px < r.x + r.w) &&
    decide (r.y ≤ py) && decide (py < r.y + r.h)

/-- A node of the solved tree as the hit-tester sees it: identifier, solved
box, whether it clips its subtree at its overflow boundary, whether it is
input-transparent, and its children in paint order. -/
inductive HitTree where
  | mk (nodeId : Nat) (box : Rect) (clipsChildren : Bool)
      (inputTransparent : Bool) (children : List HitTree)
deriving Repr

def HitTree.nodeId : HitTree → Nat
  | .mk i _ _ _ _ => i

def HitTree.box : HitTree → Rect
  | .mk _ b _ _ _ => b

def HitTree.children : HitTree → List HitTree
  | .mk _ _ _ _ cs => cs

/-- First hit in an ordered list of per-node results. -/
def firstSome : List (Option Nat) → Option Nat
  | [] => none
  | some i :: _ => some i
  | none :: rest => firstSome rest

/-- Modelled from the spec: the hit-tester (part of the display-list /
`ui_description` side declared in `src/azul/src/lib.rs` but not included in
the sources) — walks nodes in reverse paint order, deepest descendant first,
returns the first node whose solved box contains the point and which is not
input-transparent; a node whose subtree is clipped at its overflow boundary
adds its box to the clip stack, and a node is hittable only if every clip
rectangle on the stack from its ancestors contains the point. -/
def hitTestClipped (px py : ℚ) (clip : List Rect) : HitTree → Option Nat
  | .mk i box clips transp children =>
    let childClip := cond clips (box :: clip) clip
    let childHits := (children.attach.reverse.map
        (fun c => hitTestClipped px py childClip c.1))
    match firstSome childHits with
    | some j => some j
    | none =>
        if clip.all (fun r => r.containsB px py) && box.containsB px py && !transp
        then some i else none
termination_by t => sizeOf t
decreasing_by
  have h := List.sizeOf_lt_of_mem c.2
  simp only [HitTree.mk.sizeOf_spec]
  omega

/-- The hit-tester entry point: no clip constraints above the root. -/
def hitTest (px py : ℚ) (t : HitTree) : Option Nat := hitTestClipped px py [] t

/-- The selector capability set of the cascade: type, class, id and
pseudo-state selectors. -/
inductive Selector where
  | typeSel (t : Nat)
  | classSel (c : Nat)
  | idSel (i : Nat)
  | pseudoHover
  | pseudoActive
  | pseudoFocus
deriving DecidableEq, Repr

/-- What selector matching sees of a node: its type, classes, optional element
id and externally-supplied interaction state. -/
structure NodeStyleInfo where
  typeId : Nat
  classes : List Nat
  elemId : Option Nat
  hovered : Bool
  active : Bool
  focused : Bool
deriving DecidableEq, Repr

/-- Polymorphic selector matching over the capability set. -/
def selectorMatches (n : NodeStyleInfo) : Selector → Bool
  | .typeSel t => n.typeId == t
  | .classSel c => n.classes.contains c
  | .idSel i => n.elemId == some i
  | .pseudoHover => n.hovered
  | .pseudoActive => n.active
  | .pseudoFocus => n.focused

/-- One compiled stylesheet rule: selector, pre-computed specificity and the
property set it applies (property id, value). -/
structure StyleRule where
  selector : Selector
  specificity : Nat
  props : List (Nat × Nat)
deriving DecidableEq, Repr

/-- First value bound to property `p` in a property list. -/
def lookupProp (ps : List (Nat × Nat)) (p : Nat) : Option Nat :=
  (ps.find? (fun q => q.1 == p)).map Prod.snd

/-- Overwrite a resolved property map with a property list. -/
def applyProps (base : Nat → Option Nat) (ps : List (Nat × Nat)) : Nat → Option Nat :=
  fun p =>
    match lookupProp ps p with
    | some v => some v
    | none => base p

/-- Apply a list of rules in order; later rules overwrite earlier ones. -/
def applyRules (base : Nat → Option Nat) (rules : List StyleRule) : Nat → Option Nat :=
  rules.foldl (fun acc r => applyProps acc r.props) base

/-- Modelled from the spec: the cascade of the `style` module (declared in
`src/azul/src/lib.rs` but not included in the sources) — start from the
inherited values of the parent's resolved style (inheritable properties only),
apply the matching stylesheet rules ordered by ascending specificity (the sort
is stable, so source order breaks ties and later wins), then apply the
inline/direct overrides last, always with highest priority. -/
def cascade (inheritable : Nat → Bool) (parentResolved : Nat → Option Nat)
    (stylesheet : List StyleRule) (node : NodeStyleInfo)
    (inlineProps : List (Nat × Nat)) : Nat → Option Nat :=
  let base : Nat → Option Nat := fun p => if inheritable p then parentResolved p else none
  let matching := stylesheet.filter (fun r => selectorMatches node r.selector)
  let ordered := matching.mergeSort (fun r1 r2 => r1.specificity ≤ r2.specificity)
  applyProps (applyRules base ordered) inlineProps

/-- A single-precision geometry value as the solver's numeric semantics see
it: a finite rational, an infinity, or NaN.  The sign of an infinity is not
tracked (geometry is non-negative). -/
inductive FloatVal where
  | finite (q : ℚ)
  | infinite
  | nan
deriving DecidableEq, Repr

/-- IEEE-style addition on geometry values. -/
def FloatVal.add : FloatVal → FloatVal → FloatVal
  | nan, _ => nan
  | _, nan => nan
  | infinite, _ => infinite
  | _, infinite => infinite
  | finite a, finite b => finite (a + b)

/-- IEEE-style multiplication on geometry values: infinity times zero is NaN. -/
def FloatVal.mul : FloatVal → FloatVal → FloatVal
  | nan, _ => nan
  | _, nan => nan
  | infinite, finite b => if b = 0 then nan else infinite
  | finite a, infinite => if a = 0 then nan else infinite
  | infinite, infinite => infinite
  | finite a, finite b => finite (a * b)

/-- IEEE-style division on geometry values: zero over zero is NaN, a nonzero
finite value over zero is an infinity, anything over infinity is zero. -/
def FloatVal.div : FloatVal → FloatVal → FloatVal
  | nan, _ => nan
  | _, nan => nan
  | infinite, infinite => nan
  | infinite, finite _ => infinite
  | finite _, infinite => finite 0
  | finite a, finite b =>
      if b = 0 then (if a = 0 then nan else infinite) else finite (a / b)

/-- Whether a geometry value is an invalid (NaN or infinite) intermediate. -/
def FloatVal.isInvalid : FloatVal → Bool
  | finite _ => false
  | infinite => true
  | nan => true

/-- A declared main-axis size: an absolute value as handed over by the
application (hence possibly already NaN or infinite), a percentage of the
parent's resolved size, or automatic. -/
inductive Dimension where
  | definite (v : FloatVal)
  | percent (p : FloatVal)
  | auto
deriving DecidableEq, Repr

/-- A node of the tree as the layout solver sees it: identifier, declared
main-axis dimension and children. -/
inductive LayoutTree where
  | mk (nodeId : Nat) (dim : Dimension) (children : List LayoutTree)
deriving Repr

def LayoutTree.nodeId : LayoutTree → Nat
  | .mk i _ _ => i

def LayoutTree.dim : LayoutTree → Dimension
  | .mk _ d _ => d

def LayoutTree.children : LayoutTree → List LayoutTree
  | .mk _ _ cs => cs

/-- Number of nodes of a layout tree. -/
def nodeCount : LayoutTree → Nat
  | .mk _ _ children => 1 + (children.attach.map (fun c => nodeCount c.1)).sum
termination_by t => sizeOf t
decreasing_by
  have h := List.sizeOf_lt_of_mem c.2
  simp only [LayoutTree.mk.sizeOf_spec]
  omega

/-- Modelled from the spec: the raw (pre-sanitization) main-axis size the
`ui_solver` computes for a node — a definite dimension is taken as supplied by
the application; a percentage resolves against the parent's resolved size and
resolves to zero when no ancestor gives a definite size (an indefinite
parent); `auto` takes the (unmodelled) intrinsic content size, here zero. -/
def rawMainSize (parent : Option ℚ) : Dimension → FloatVal
  | .definite v => v
  | .percent p =>
      match parent with
      | some w => FloatVal.div (FloatVal.mul p (FloatVal.finite w)) (FloatVal.finite 100)
      | none => FloatVal.finite 0
  | .auto => FloatVal.finite 0

/-- Modelled from the spec: the numeric error containment of the `ui_solver` —
sizes are clamped non-negative, and an infinite/NaN intermediate lays the node
out at zero size and raises a warning instead of propagating.  Returns the
final size and whether a warning was recorded. -/
def sanitize (v : FloatVal) : ℚ × Bool :=
  match v with
  | .finite q => (max 0 q, false)
  | .infinite => ((0 : ℚ), true)
  | .nan => ((0 : ℚ), true)

/-- Modelled from the spec: the per-frame layout pass of the `ui_solver`
module (declared in `src/azul/src/lib.rs` but not included in the sources) —
walks the whole tree top-down, resolves each node's main-axis size against the
parent's already-sanitized resolved size, and accumulates the frame-level
diagnostics list of per-node numeric warnings alongside the solved sizes.  The
pass is total: it always returns a full solved tree. -/
def solveNode (parent : Option ℚ) : LayoutTree → List (Nat × ℚ) × List Nat
  | .mk i dim children =>
    let s := sanitize (rawMainSize parent dim)
    let childResults := children.attach.map (fun c => solveNode (some s.1) c.1)
    ((i, s.1) :: (childResults.map Prod.fst).flatten,
     (if s.2 then [i] else []) ++ (childResults.map Prod.snd).flatten)
termination_by t => sizeOf t
decreasing_by
  have h := List.sizeOf_lt_of_mem c.2
  simp only [LayoutTree.mk.sizeOf_spec]
  omega

/-- A chain of nested percentage-sized nodes: the root carries percentage `p`,
the nodes below carry the percentages in `ps`, with consecutive identifiers
starting at `i`. -/
def percentChain (i : Nat) (p : ℚ) : List ℚ → LayoutTree
  | [] => .mk i (.percent (.finite p)) []
  | q :: rest => .mk i (.percent (.finite p)) [percentChain (i + 1) q rest]

/-- A declared (application-side) tree node, as produced by `declare_tree`:
node kind, optional stable key, declared properties and children — "a plain
description with no engine-owned identifiers". -/
inductive DeclaredTree where
  | mk (kind : Nat) (key : Option Nat) (props : List (Nat × Nat))
      (children : List DeclaredTree)
deriving Repr

def DeclaredTree.kind : DeclaredTree → Nat
  | .mk k _ _ _ => k

def DeclaredTree.key : DeclaredTree → Option Nat
  | .mk _ k _ _ => k

def DeclaredTree.props : DeclaredTree → List (Nat × Nat)
  | .mk _ _ p _ => p

def DeclaredTree.children : DeclaredTree → List DeclaredTree
  | .mk _ _ _ c => c

/-- A node of the arena's previous-frame tree: the declared data plus the
node's generational arena identifier. -/
inductive ArenaTree where
  | mk (nid : NodeId) (kind : Nat) (key : Option Nat) (props : List (Nat × Nat))
      (children : List ArenaTree)
deriving Repr

def ArenaTree.nid : ArenaTree → NodeId
  | .mk n _ _ _ _ => n

def ArenaTree.kind : ArenaTree → Nat
  | .mk _ k _ _ _ => k

def ArenaTree.key : ArenaTree → Option Nat
  | .mk _ _ k _ _ => k

def ArenaTree.props : ArenaTree → List (Nat × Nat)
  | .mk _ _ _ p _ => p

def ArenaTree.children : ArenaTree → List ArenaTree
  | .mk _ _ _ _ c => c

/-- The declared description of an arena tree: the same tree with the
engine-owned identifiers stripped.  Declaring this tree again is declaring a
tree identical to the previous frame's. -/
def declaredOf : ArenaTree → DeclaredTree
  | .mk _ kind key props children =>
    .mk kind key props (children.attach.map (fun c => declaredOf c.1))
termination_by t => sizeOf t
decreasing_by
  have h := List.sizeOf_lt_of_mem c.2
  simp only [ArenaTree.mk.sizeOf_spec]
  omega

/-- The differ's output patch: `{inserted, removed, changed_props, moved}`.
Inserted nodes have no identifier yet, so they are counted; the other entries
name arena identifiers. -/
structure Patch where
  inserted : Nat
  removed : List NodeId
  changedProps : List NodeId
  moved : List NodeId
deriving DecidableEq, Repr

def Patch.empty : Patch := ⟨0, [], [], []⟩

def Patch.append (p q : Patch) : Patch :=
  ⟨p.inserted + q.inserted, p.removed ++ q.removed,
   p.changedProps ++ q.changedProps, p.moved ++ q.moved⟩

/-- Index (counting from `j0`) of the first not-yet-claimed previous-frame
child carrying stable key `k` and kind `kd`. -/
def findKeyMatch (used : List Nat) (k kd : Nat) : List ArenaTree → Nat → Option Nat
  | [], _ => none
  | o :: rest, j =>
      if o.key = some k ∧ o.kind = kd ∧ ¬ j ∈ used then some j
      else findKeyMatch used k kd rest (j + 1)

/-- Modelled from the spec: the matching policy of the tree differ (the `dom`
module, declared in `src/azul/src/lib.rs` but not included in the sources) —
for each declared child in order: a child with an explicit stable key matches
the first unclaimed previous-frame child with the same key (key overrides
positional matching, forcing identity continuity even if position shifts); a
child without a key matches positionally: the unclaimed, unkeyed
previous-frame child of the same kind at the same child index.  `i` is the
position of the first remaining declared child and `used` the already-claimed
previous-frame indices. -/
def computeMatches (olds : List ArenaTree) :
    List DeclaredTree → Nat → List Nat → List (Option Nat)
  | [], _, _ => []
  | d :: rest, i, used =>
    let m : Option Nat :=
      match d.key with
      | some k => findKeyMatch used k d.kind olds 0
      | none =>
          match olds[i]? with
          | some o =>
              if o.key = none ∧ o.kind = d.kind ∧ ¬ i ∈ used then some i else none
          | none => none
    match m with
    | some j => some j :: computeMatches olds rest (i + 1) (j :: used)
    | none => none :: computeMatches olds rest (i + 1) used

/-- Previous-frame children that no declared child matched: they are removed
(their slots will be freed). -/
def removedIds (olds : List ArenaTree) (mlist : List (Option Nat)) : List NodeId :=
  (List.range olds.length).filterMap (fun j =>
    if some j ∈ mlist then none
    else
      match olds[j]? with
      | some o => some o.nid
      | none => none)

mutual

/-- Modelled from the spec: the tree differ of the `dom` module (declared in
`src/azul/src/lib.rs` but not included in the sources) — compares the newly
declared tree against the arena's previous-frame tree at a matched node pair:
a property change is recorded when the declared properties differ, the
children are matched by the stable-key/positional policy, matched children
are diffed recursively (recording a move when the matched index shifted),
unmatched declared children are insertions and unmatched previous-frame
children are removals. -/
def diffT : ArenaTree → DeclaredTree → Patch
  | .mk nid _kind _key props olds, .mk _dkind _dkey dprops news =>
    let mlist := computeMatches olds news 0 []
    Patch.append
      ⟨0, removedIds olds mlist, if props = dprops then [] else [nid], []⟩
      (diffChildren olds news mlist 0)
termination_by _a d => sizeOf d

/-- Walk the declared children together with their computed matches (`i` is
the declared child index), collecting the child patches. -/
def diffChildren (olds : List ArenaTree) :
    List DeclaredTree → List (Option Nat) → Nat → Patch
  | [], _, _ => Patch.empty
  | _d :: rest, [], i => Patch.append ⟨1, [], [], []⟩ (diffChildren olds rest [] (i + 1))
  | d :: rest, some j :: ms, i =>
    let sub :=
      match olds[j]? with
      | some o =>
          Patch.append (diffT o d)
            (if j = i then Patch.empty else ⟨0, [], [], [o.nid]⟩)
      | none => Patch.empty
    Patch.append sub (diffChildren olds rest ms (i + 1))
  | _d :: rest, none :: ms, i =>
    Patch.append ⟨1, [], [], []⟩ (diffChildren olds rest ms (i + 1))
termination_by news _ _ => sizeOf news

end

def fontProp : Nat := 0

def sizeProp : Nat := 1

def wrapProp : Nat := 2

def colorProp : Nat := 3

def textContentProp : Nat := 4

/-- Modelled from the spec: the subset of declared properties that affects
measurement — font, size, wrapping and the text/content payload; other
properties such as color do not affect measurement. -/
def measurementRelevant (p : Nat) : Bool :=
  p == fontProp || p == sizeProp || p == wrapProp || p == textContentProp

/-- Modelled from the spec: the Frame Cache key of the `text_cache` module — a
content hash over a node's kind, text/content payload and the
measurement-affecting style subset.  Hashing is modelled as the identity on
the hashed data: fingerprint collisions are "a correctness bug class to be
prevented by fingerprint design", so the model is collision-free. -/
structure Fingerprint where
  kind : Nat
  mprops : List (Nat × Nat)
deriving DecidableEq, Repr

def fingerprintOf (kind : Nat) (props : List (Nat × Nat)) : Fingerprint :=
  ⟨kind, props.filter (fun pv => measurementRelevant pv.1)⟩

/-- The node kind of text runs — the nodes the measurement pass measures. -/
def textKind : Nat := 1

mutual

/-- Modelled from the spec: the bottom-up intrinsic measurement pass over the
Frame Cache (`text_cache` module, declared in `src/azul/src/lib.rs` but not
included in the sources) — for every text node the node's fingerprint is
looked up in the cache; a hit reuses the cached measurement, a miss calls the
external `measure` collaborator once and stores the result under the
fingerprint.  Returns the updated cache (the set of fingerprints it holds; the
measured values themselves do not matter here) and the number of external
`measure` calls.  The LRU capacity bound of the cache is not modelled: the
cache is assumed to stay within capacity. -/
def measureTree (cache : List Fingerprint) : ArenaTree → List Fingerprint × Nat
  | .mk _ kind _ props children =>
    let fp := fingerprintOf kind props
    let step : List Fingerprint × Nat :=
      if kind = textKind then
        (if fp ∈ cache then (cache, 0) else (fp :: cache, 1))
      else (cache, 0)
    let rest := measureList step.1 children
    (rest.1, step.2 + rest.2)
termination_by t => sizeOf t

/-- Measure a sibling list left to right, threading the cache through. -/
def measureList (cache : List Fingerprint) : List ArenaTree → List Fingerprint × Nat
  | [] => (cache, 0)
  | t :: ts =>
    let r1 := measureTree cache t
    let r2 := measureList r1.1 ts
    (r2.1, r1.2 + r2.2)
termination_by ts => sizeOf ts

end

/-- The fingerprints of the text nodes of a tree. -/
def textFPs : ArenaTree → List Fingerprint
  | .mk _ kind _ props children =>
    (if kind = textKind then [fingerprintOf kind props] else []) ++
    (children.attach.map (fun c => textFPs c.1)).flatten
termination_by t => sizeOf t
decreasing_by
  have h := List.sizeOf_lt_of_mem c.2
  simp only [ArenaTree.mk.sizeOf_spec]
  omega

/-- The fingerprints of the text nodes of a sibling list. -/
def textFPsList (ts : List ArenaTree) : List Fingerprint := (ts.map textFPs).flatten

/-- Modelled from the spec: the Frame Cache invalidation driven by the
differ's patch — "a `changed_props` entry invalidates the Frame Cache entry
for that node only if the fingerprint actually changed". -/
def invalidateForChange (cache : List Fingerprint) (kind : Nat)
    (oldProps newProps : List (Nat × Nat)) : List Fingerprint :=
  if fingerprintOf kind oldProps = fingerprintOf kind newProps then cache
  else cache.filter (fun f => f != fingerprintOf kind oldProps)

/-- A concrete keyed sibling list: two cached text rows with stable keys 10
and 20. -/
def demoOlds : List ArenaTree :=
  [.mk ⟨0, 0⟩ textKind (some 10) [(textContentProp, 1)] [],
   .mk ⟨1, 0⟩ textKind (some 20) [(textContentProp, 2)] []]

/-- The reordering of `demoOlds` that swaps the two rows. -/
def demoPerm : List (Fin demoOlds.length) := [⟨1, by decide⟩, ⟨0, by decide⟩]


theorem sum_map_basis_add_share (r G : ℚ) (cs : List FlexChild) :
    (cs.map (fun c => c.basis + r * c.grow / G)).sum
      = totalBasis cs + r * totalGrow cs / G := by
  induction cs with
  | nil => simp [totalBasis, totalGrow]
  | cons c cs ih =>
    simp only [List.map_cons, List.sum_cons, ih, totalBasis, totalGrow]
    rw [mul_add, add_div]
    ring

/-- C1 (amended): when the total grow factor is positive, the bases and grow
factors are non-negative and the bases fit in the container, the distribution
pass hands out exactly the container's available main-axis space: the final
child sizes sum to `available`. -/
theorem distributeMain_sum (available : ℚ) (cs : List FlexChild)
    (hpos : ∀ c ∈ cs, 0 ≤ c.basis ∧ 0 ≤ c.grow)
    (hg : 0 < totalGrow cs)
    (hb : totalBasis cs ≤ available) :
    (distributeMain available cs).sum = available := by
  have hrem : (0 : ℚ) ≤ available - totalBasis cs := sub_nonneg.mpr hb
  unfold distributeMain
  rw [if_pos ⟨hg, hrem⟩]
  have hclamp : (cs.map (fun c =>
      max 0 (c.basis + (available - totalBasis cs) * c.grow / totalGrow cs)))
      = cs.map (fun c =>
        c.basis + (available - totalBasis cs) * c.grow / totalGrow cs) := by
    apply List.map_congr_left
    intro c hc
    have h1 : (0 : ℚ) ≤ c.basis := (hpos c hc).1
    have h2 : (0 : ℚ) ≤ (available - totalBasis cs) * c.grow / totalGrow cs :=
      div_nonneg (mul_nonneg hrem (hpos c hc).2) (le_of_lt hg)
    exact max_eq_right (add_nonneg h1 h2)
  rw [hclamp, sum_map_basis_add_share]
  rw [mul_div_assoc, div_self (ne_of_gt hg), mul_one]
  ring

theorem distributeMain_sum_witness :
    (distributeMain 300 [⟨0, 1⟩, ⟨0, 2⟩]).sum = 300 :=
  distributeMain_sum 300 [⟨0, 1⟩, ⟨0, 2⟩]
    (by intro c hc; simp only [List.mem_cons, List.not_mem_nil, or_false] at hc;
        rcases hc with h | h <;> subst h <;> norm_num)
    (by norm_num [totalGrow])
    (by norm_num [totalBasis])

/-- C1 counterexample: with every grow factor zero (here one child of basis 0
and grow 0 in a container of 300), no space is distributed, so the children's
final sizes sum to 0, not to the available 300. -/
theorem distributeMain_allZeroGrow_cex :
    ¬ ((distributeMain 300 [⟨0, 0⟩]).sum = 300) := by
  norm_num [distributeMain, totalBasis, totalGrow]

/-- C2: a container of width 300 with two children of flex bases 0 and grow
factors 1 and 2 solves to child widths 100 and 200. -/
theorem distributeMain_grow_one_two :
    distributeMain 300 [⟨0, 1⟩, ⟨0, 2⟩] = [100, 200] := by
  norm_num [distributeMain, totalBasis, totalGrow]

/-- C7: a valid identifier captured before a `free` is invalidated by
`free`-then-`allocate` reusing the same slot: the allocate does reuse the freed
slot index, yet the stale identifier differs from the new one (identity
equality fails), dereferencing the stale identifier returns a not-found/stale
result both right after the free and after the reallocation, and the fresh
identifier dereferences to the new node — no aliasing. -/
theorem free_allocate_stale (a : Arena) (id : NodeId) (k x : Nat)
    (hvalid : a.get id = some x) :
    ((a.free id).allocate k).1.index = id.index ∧
    ((a.free id).allocate k).1 ≠ id ∧
    (a.free id).get id = none ∧
    ((a.free id).allocate k).2.get id = none ∧
    ((a.free id).allocate k).2.get ((a.free id).allocate k).1 = some k := by
  unfold Arena.get at hvalid
  rcases hs : a.slots[id.index]? with _ | s
  · rw [hs] at hvalid; exact absurd hvalid (by simp)
  · rw [hs] at hvalid
    simp only [] at hvalid
    by_cases hcond : s.occupied = true ∧ s.generation = id.generation
    · have hlt : id.index < a.slots.length := (List.getElem?_eq_some.mp hs).1
      have hfree : a.free id =
          { slots := a.slots.set id.index
              { generation := s.generation + 1, occupied := false, kind := s.kind },
            freeList := id.index :: a.freeList } := by
        simp only [Arena.free, hs]
        rw [if_pos hcond]
      have hgetset :
          (a.slots.set id.index
            { generation := s.generation + 1, occupied := false, kind := s.kind })[id.index]?
          = some { generation := s.generation + 1, occupied := false, kind := s.kind } :=
        List.getElem?_set_eq_of_lt _ hlt
      have hlt2 : id.index <
          (a.slots.set id.index
            { generation := s.generation + 1, occupied := false, kind := s.kind }).length := by
        simpa using hlt
      have halloc : (a.free id).allocate k =
          (⟨id.index, s.generation + 1⟩,
           { slots := (a.slots.set id.index
                { generation := s.generation + 1, occupied := false, kind := s.kind }).set id.index
                { generation := s.generation + 1, occupied := true, kind := k },
             freeList := a.freeList }) := by
        rw [hfree]
        simp only [Arena.allocate, hgetset]
      refine ⟨by rw [halloc], ?_, ?_, ?_, ?_⟩
      · rw [halloc]
        intro hcontra
        have : s.generation + 1 = id.generation := congrArg NodeId.generation hcontra
        omega
      · rw [hfree]
        simp only [Arena.get, hgetset]
        simp
      · rw [halloc]
        simp only [Arena.get, List.getElem?_set_eq_of_lt _ hlt2]
        rw [if_neg]
        intro hcontra
        omega
      · rw [halloc]
        simp only [Arena.get, List.getElem?_set_eq_of_lt _ hlt2]
        simp
    · rw [if_neg hcond] at hvalid
      exact absurd hvalid (by simp)

theorem free_allocate_stale_witness :
    (Arena.get { slots := [⟨5, true, 7⟩], freeList := [] } ⟨0, 5⟩ = some 7) ∧
    ((Arena.free { slots := [⟨5, true, 7⟩], freeList := [] } ⟨0, 5⟩).allocate 9).1 ≠ ⟨0, 5⟩ := by
  have h := free_allocate_stale { slots := [⟨5, true, 7⟩], freeList := [] } ⟨0, 5⟩ 9 7
    (by simp [Arena.get])
  exact ⟨by simp [Arena.get], h.2.1⟩

theorem firstSome_of_all_none (l : List (Option Nat))
    (h : ∀ o ∈ l, o = none) : firstSome l = none := by
  induction l with
  | nil => rfl
  | cons o rest ih =>
    have ho := h o (List.mem_cons_self o rest)
    subst ho
    exact ih (fun o hm => h o (List.mem_cons_of_mem _ hm))

theorem hitTestClipped_outside_bounded (px py : ℚ) (n : Nat) :
    ∀ t : HitTree, sizeOf t ≤ n → ∀ clip : List Rect,
    (∃ r ∈ clip, r.containsB px py = false) →
    hitTestClipped px py clip t = none := by
  induction n with
  | zero =>
    intro t hle
    cases t with
    | mk i box clips transp children => simp at hle
  | succ n ih =>
    intro t hle clip hout
    cases t with
    | mk i box clips transp children =>
      obtain ⟨r, hr, hrf⟩ := hout
      have hchild : firstSome ((children.attach.reverse.map
          (fun c => hitTestClipped px py (cond clips (box :: clip) clip) c.1))) = none := by
        apply firstSome_of_all_none
        intro o ho
        simp only [List.mem_map, List.mem_reverse] at ho
        obtain ⟨c, hc, rfl⟩ := ho
        have hsz : sizeOf c.1 ≤ n := by
          have h1 := List.sizeOf_lt_of_mem c.2
          simp only [HitTree.mk.sizeOf_spec] at hle
          omega
        apply ih c.1 hsz
        refine ⟨r, ?_, hrf⟩
        cases clips with
        | false => simpa using hr
        | true => simp [List.mem_cons, hr]
      rw [hitTestClipped]
      rw [hchild]
      have hall : clip.all (fun r => r.containsB px py) = false := by
        rw [List.all_eq_false]
        exact ⟨r, hr, by simp [hrf]⟩
      simp [hall]

theorem hitTestClipped_outside_clip (px py : ℚ) (clip : List Rect) (t : HitTree)
    (hout : ∃ r ∈ clip, r.containsB px py = false) :
    hitTestClipped px py clip t = none :=
  hitTestClipped_outside_bounded px py (sizeOf t) t le_rfl clip hout

/-- C6: a point lying inside the solved box of a descendant but outside the
overflow boundary of a clipping ancestor never hits the clipped subtree: the
hit-test of the whole subtree rooted at the clipping ancestor is `none`, so
the i overall result can only be some other (unclipped) node or nothing — in
particular never the clipped child, whatever its own box contains. -/
theorem hitTest_clips_subtree (px py : ℚ) (clip : List Rect) (i : Nat)
    (box : Rect) (transp : Bool) (children : List HitTree)
    (hout : box.containsB px py = false) :
    hitTestClipped px py clip (.mk i box true transp children) = none := by
  rw [hitTestClipped]
  simp only [cond_true]
  have hchild : firstSome ((children.attach.reverse.map
      (fun c => hitTestClipped px py (box :: clip) c.1))) = none := by
    apply firstSome_of_all_none
    intro o ho
    simp only [List.mem_map, List.mem_reverse] at ho
    obtain ⟨c, hc, rfl⟩ := ho
    exact hitTestClipped_outside_clip px py _ c.1
      ⟨box, List.mem_cons_self _ _, hout⟩
  rw [hchild]
  simp [hout]

theorem hitTest_clips_subtree_witness :
    Rect.containsB ⟨20, 20, 50, 50⟩ 25 25 = true ∧
    Rect.containsB ⟨0, 0, 10, 10⟩ 25 25 = false ∧
    hitTestClipped 25 25 []
      (.mk 1 ⟨0, 0, 10, 10⟩ true false [.mk 2 ⟨20, 20, 50, 50⟩ false false []]) = none := by
  refine ⟨?_, ?_, ?_⟩
  · simp [Rect.containsB]
    norm_num
  · have h : Rect.containsB ⟨0, 0, 10, 10⟩ 25 25 = false := by
      simp [Rect.containsB]
      norm_num
    exact h
  · apply hitTest_clips_subtree
    simp [Rect.containsB]
    norm_num

/-- C5: whenever an inline/direct override binds a property, the resolved
style takes the inline value — for every stylesheet, whatever the specificity
or source order of its matching rules, and every inherited map. -/
theorem cascade_inline_wins (inheritable : Nat → Bool)
    (parentResolved : Nat → Option Nat) (stylesheet : List StyleRule)
    (node : NodeStyleInfo) (inlineProps : List (Nat × Nat)) (p v : Nat)
    (h : lookupProp inlineProps p = some v) :
    cascade inheritable parentResolved stylesheet node inlineProps p = some v := by
  simp only [cascade, applyProps, h]

theorem cascade_inline_wins_witness :
    lookupProp [(0, 9)] 0 = some 9 ∧
    selectorMatches ⟨3, [], some 1, false, false, false⟩ (.idSel 1) = true ∧
    cascade (fun _ => false) (fun _ => none)
      [⟨.idSel 1, 100, [(0, 5)]⟩] ⟨3, [], some 1, false, false, false⟩
      [(0, 9)] 0 = some 9 := by
  refine ⟨by decide, by decide, ?_⟩
  exact cascade_inline_wins (fun _ => false) (fun _ => none)
    [⟨.idSel 1, 100, [(0, 5)]⟩] ⟨3, [], some 1, false, false, false⟩
    [(0, 9)] 0 9 (by decide)

theorem nodeCount_mk (i : Nat) (d : Dimension) (children : List LayoutTree) :
    nodeCount (.mk i d children) = 1 + (children.map nodeCount).sum := by
  rw [nodeCount, List.attach_map_coe]

theorem solveNode_mk (parent : Option ℚ) (i : Nat) (dim : Dimension)
    (children : List LayoutTree) :
    solveNode parent (.mk i dim children) =
      ((i, (sanitize (rawMainSize parent dim)).1) ::
          (children.map (fun c =>
            (solveNode (some (sanitize (rawMainSize parent dim)).1) c).1)).flatten,
       (if (sanitize (rawMainSize parent dim)).2 then [i] else []) ++
          (children.map (fun c =>
            (solveNode (some (sanitize (rawMainSize parent dim)).1) c).2)).flatten) := by
  rw [solveNode]
  simp only [List.map_map]
  rw [show (Prod.fst ∘ fun c : {x // x ∈ children} =>
        solveNode (some (sanitize (rawMainSize parent dim)).1) c.1)
      = (fun c : {x // x ∈ children} =>
        (solveNode (some (sanitize (rawMainSize parent dim)).1) c.1).1) from rfl]
  rw [show (Prod.snd ∘ fun c : {x // x ∈ children} =>
        solveNode (some (sanitize (rawMainSize parent dim)).1) c.1)
      = (fun c : {x // x ∈ children} =>
        (solveNode (some (sanitize (rawMainSize parent dim)).1) c.1).2) from rfl]
  rw [List.attach_map_coe children (fun c =>
    (solveNode (some (sanitize (rawMainSize parent dim)).1) c).1)]
  rw [List.attach_map_coe children (fun c =>
    (solveNode (some (sanitize (rawMainSize parent dim)).1) c).2)]

theorem sanitize_nonneg (v : FloatVal) : (0 : ℚ) ≤ (sanitize v).1 := by
  cases v <;> simp [sanitize]

theorem solver_total_bounded (n : Nat) :
    ∀ t : LayoutTree, sizeOf t ≤ n → ∀ parent : Option ℚ,
    (solveNode parent t).1.length = nodeCount t ∧
    (∀ pr ∈ (solveNode parent t).1, (0 : ℚ) ≤ pr.2) := by
  induction n with
  | zero =>
    intro t hle
    cases t with
    | mk i d c => simp at hle
  | succ n ih =>
    intro t hle parent
    cases t with
    | mk i dim children =>
      have hsz : ∀ c ∈ children, sizeOf c ≤ n := by
        intro c hc
        have h1 := List.sizeOf_lt_of_mem hc
        simp only [LayoutTree.mk.sizeOf_spec] at hle
        omega
      constructor
      · rw [solveNode_mk, nodeCount_mk]
        simp only [List.length_cons, List.length_flatten, List.map_map]
        have hmap : List.map (List.length ∘ fun c =>
            (solveNode (some (sanitize (rawMainSize parent dim)).1) c).1) children
            = List.map nodeCount children := by
          apply List.map_congr_left
          intro c hc
          exact (ih c (hsz c hc) _).1
        rw [hmap]
        omega
      · rw [solveNode_mk]
        intro pr hpr
        rcases List.mem_cons.mp hpr with h | h
        · subst h
          exact sanitize_nonneg _
        · rw [List.mem_flatten] at h
          obtain ⟨l, hl, hprl⟩ := h
          rw [List.mem_map] at hl
          obtain ⟨c, hc, rfl⟩ := hl
          exact (ih c (hsz c hc) _).2 pr hprl

/-- C9: the layout pass is total and contains numeric errors per node: for
every tree and parent context it returns a solved entry for every node of the
tree, every solved size is a genuine non-negative rational (no NaN or infinity
is ever propagated into the output), and a node whose raw intermediate
main-axis value is NaN or infinite is laid out at zero size with its
identifier recorded in the frame-level diagnostics list — the rest of the
pass still completes. -/
theorem solver_numeric_error_contained (parent : Option ℚ) (t : LayoutTree) :
    (solveNode parent t).1.length = nodeCount t ∧
    (∀ pr ∈ (solveNode parent t).1, (0 : ℚ) ≤ pr.2) ∧
    ((rawMainSize parent t.dim).isInvalid = true →
      (solveNode parent t).1.head? = some (t.nodeId, 0) ∧
      t.nodeId ∈ (solveNode parent t).2) := by
  refine ⟨(solver_total_bounded (sizeOf t) t le_rfl parent).1,
          (solver_total_bounded (sizeOf t) t le_rfl parent).2, ?_⟩
  intro hbad
  cases t with
  | mk i dim children =>
    simp only [LayoutTree.dim] at hbad
    have hsan : sanitize (rawMainSize parent dim) = ((0 : ℚ), true) := by
      rcases h : rawMainSize parent dim with q | _ | _
      · rw [h] at hbad
        simp [FloatVal.isInvalid] at hbad
      · simp [sanitize]
      · simp [sanitize]
    rw [solveNode_mk]
    rw [hsan]
    simp [LayoutTree.nodeId]

theorem solver_numeric_error_contained_witness :
    (rawMainSize none (Dimension.definite FloatVal.nan)).isInvalid = true ∧
    (solveNode none (.mk 7 (.definite .nan)
        [.mk 8 (.definite (.finite 5)) []])).1.head? = some (7, 0) ∧
    7 ∈ (solveNode none (.mk 7 (.definite .nan)
        [.mk 8 (.definite (.finite 5)) []])).2 ∧
    (solveNode none (.mk 7 (.definite .nan)
        [.mk 8 (.definite (.finite 5)) []])).1.length
      = nodeCount (.mk 7 (.definite .nan) [.mk 8 (.definite (.finite 5)) []]) := by
  have h := solver_numeric_error_contained none
    (.mk 7 (.definite .nan) [.mk 8 (.definite (.finite 5)) []])
  have hbad : (rawMainSize none
      (LayoutTree.dim (.mk 7 (.definite .nan)
        [.mk 8 (.definite (.finite 5)) []]))).isInvalid = true := by
    simp [LayoutTree.dim, rawMainSize, FloatVal.isInvalid]
  obtain ⟨h1, h2, h3⟩ := h
  obtain ⟨h4, h5⟩ := h3 hbad
  refine ⟨by simpa [LayoutTree.dim] using hbad, ?_, ?_, h1⟩
  · simpa [LayoutTree.nodeId] using h4
  · simpa [LayoutTree.nodeId] using h5

theorem sanitize_raw_percent_indefinite (p : ℚ) (parent : Option ℚ)
    (hp : parent = none ∨ parent = some 0) :
    sanitize (rawMainSize parent (.percent (.finite p))) = ((0 : ℚ), false) := by
  rcases hp with h | h <;> subst h
  · simp [rawMainSize, sanitize]
  · simp [rawMainSize, FloatVal.mul, FloatVal.div, sanitize]

theorem percentChain_solve (ps : List ℚ) : ∀ (i : Nat) (p : ℚ) (parent : Option ℚ),
    parent = none ∨ parent = some 0 →
    (solveNode parent (percentChain i p ps)).1.map Prod.snd
        = List.replicate (ps.length + 1) (0 : ℚ) ∧
    (solveNode parent (percentChain i p ps)).2 = [] := by
  induction ps with
  | nil =>
    intro i p parent hp
    rw [percentChain, solveNode_mk, sanitize_raw_percent_indefinite p parent hp]
    simp
  | cons q rest ih =>
    intro i p parent hp
    rw [percentChain, solveNode_mk, sanitize_raw_percent_indefinite p parent hp]
    have hchild := ih (i + 1) q (some 0) (Or.inr rfl)
    simp only [List.map_cons, List.map_nil, List.flatten_cons, List.flatten_nil,
      List.append_nil, if_false, List.nil_append, Bool.false_eq_true]
    rw [hchild.1, hchild.2]
    simp [List.replicate_succ]

/-- C10: a chain of nested percentage-sized nodes with no definite-sized
ancestor solves every node in the chain to size zero with an empty
diagnostics list (no error is reported); and in general a percentage-sized
child resolves against its parent's resolved size: with a parent resolved to
`w`, a `q` percent child solves to `q * w / 100`. -/
theorem percent_chain_resolves_zero (ps : List ℚ) (i : Nat) (p : ℚ) :
    ((solveNode none (percentChain i p ps)).1.map Prod.snd
        = List.replicate (ps.length + 1) (0 : ℚ) ∧
     (solveNode none (percentChain i p ps)).2 = []) ∧
    (∀ w q : ℚ, 0 ≤ w → 0 ≤ q →
      (sanitize (rawMainSize (some w) (.percent (.finite q)))).1 = q * w / 100) := by
  refine ⟨percentChain_solve ps i p none (Or.inl rfl), ?_⟩
  intro w q hw hq
  simp only [rawMainSize, FloatVal.mul, FloatVal.div, sanitize]
  norm_num
  positivity

theorem percent_chain_resolves_zero_witness :
    ((solveNode none (percentChain 0 75 [50, 25])).1.map Prod.snd
        = List.replicate 3 (0 : ℚ) ∧
     (solveNode none (percentChain 0 75 [50, 25])).2 = []) ∧
    (sanitize (rawMainSize (some 200) (.percent (.finite 50)))).1 = 100 := by
  have h := percent_chain_resolves_zero [50, 25] 0 75
  refine ⟨h.1, ?_⟩
  have h2 := h.2 200 50 (by norm_num) (by norm_num)
  rw [h2]
  norm_num

theorem declaredOf_mk (n : NodeId) (kind : Nat) (key : Option Nat)
    (props : List (Nat × Nat)) (children : List ArenaTree) :
    declaredOf (.mk n kind key props children)
      = .mk kind key props (children.map declaredOf) := by
  rw [declaredOf, List.attach_map_coe]

theorem Patch.append_empty_empty : Patch.append Patch.empty Patch.empty = Patch.empty := rfl

theorem declaredOf_key (o : ArenaTree) : (declaredOf o).key = o.key := by
  cases o with
  | mk n kind key props children => rw [declaredOf_mk]; rfl

theorem declaredOf_kind (o : ArenaTree) : (declaredOf o).kind = o.kind := by
  cases o with
  | mk n kind key props children => rw [declaredOf_mk]; rfl

theorem declaredOf_props (o : ArenaTree) : (declaredOf o).props = o.props := by
  cases o with
  | mk n kind key props children => rw [declaredOf_mk]; rfl

theorem findKeyMatch_first (k kd : Nat) (used : List Nat) :
    ∀ (l : List ArenaTree) (j0 i : Nat) (o : ArenaTree),
    l[i]? = some o → o.key = some k → o.kind = kd → ¬ (j0 + i) ∈ used →
    (∀ j, j < i → ∀ o2, l[j]? = some o2 →
      ¬(o2.key = some k ∧ o2.kind = kd ∧ ¬ (j0 + j) ∈ used)) →
    findKeyMatch used k kd l j0 = some (j0 + i) := by
  intro l
  induction l with
  | nil =>
    intro j0 i o hget
    simp at hget
  | cons o0 rest ih =>
    intro j0 i o hget hkey hkind hnotused hpre
    cases i with
    | zero =>
      rw [List.getElem?_cons_zero, Option.some_inj] at hget
      subst hget
      rw [findKeyMatch]
      rw [if_pos ⟨hkey, hkind, by simpa using hnotused⟩]
      simp
    | succ i2 =>
      rw [findKeyMatch]
      rw [if_neg]
      · have hrec := ih (j0 + 1) i2 o (by simpa using hget) hkey hkind
          (by
            have : j0 + 1 + i2 = j0 + (i2 + 1) := by omega
            rw [this]
            exact hnotused)
          (by
            intro j hj o2 hg2
            have h1 := hpre (j + 1) (by omega) o2 (by simpa using hg2)
            have : j0 + (j + 1) = j0 + 1 + j := by omega
            rw [this] at h1
            exact h1)
        rw [hrec]
        congr 1
        omega
      · have h0 := hpre 0 (by omega) o0 (by simp)
        simpa using h0

theorem computeMatches_self :
    ∀ (suffix : List ArenaTree) (olds : List ArenaTree) (i : Nat) (used : List Nat),
    olds.drop i = suffix →
    (∀ j ∈ used, j < i) →
    (∀ j, j < i → ∀ o : ArenaTree, olds[j]? = some o → o.key.isSome → j ∈ used) →
    computeMatches olds (suffix.map declaredOf) i used
      = (List.range' i suffix.length).map some := by
  intro suffix
  induction suffix with
  | nil =>
    intro olds i used hdrop hub hkeyed
    simp [computeMatches]
  | cons o rest ih =>
    intro olds i used hdrop hub hkeyed
    have hget : olds[i]? = some o := by
      have h0 : (olds.drop i)[0]? = some o := by rw [hdrop]; simp
      rw [List.getElem?_drop] at h0
      simpa using h0
    have hdrop2 : olds.drop (i + 1) = rest := by
      have h1 := List.drop_drop 1 i olds
      rw [hdrop] at h1
      simp at h1
      exact h1.symm
    have hnotused : ¬ i ∈ used := fun hmem => absurd (hub i hmem) (by omega)
    rw [List.map_cons, computeMatches]
    rcases hok : o.key with _ | k
    · -- unkeyed child: positional match at index i
      simp only [declaredOf_key, declaredOf_kind, hok, hget]
      rw [if_pos ⟨trivial, trivial, hnotused⟩]
      have hrest := ih olds (i + 1) (i :: used) hdrop2
        (by
          intro j hj
          rcases List.mem_cons.mp hj with h | h
          · omega
          · have := hub j h; omega)
        (by
          intro j hj o2 hg2 hks
          rcases Nat.lt_or_ge j i with hlt | hge
          · exact List.mem_cons_of_mem _ (hkeyed j hlt o2 hg2 hks)
          · have : j = i := by omega
            subst this
            exact List.mem_cons_self _ _)
      simp only []
      rw [hrest]
      rw [List.length_cons, List.range'_succ]
      simp
    · -- keyed child: the first unclaimed carrier of key k is olds[i] itself
      simp only [declaredOf_key, declaredOf_kind, hok]
      have hfind : findKeyMatch used k o.kind olds 0 = some i := by
        have h := findKeyMatch_first k o.kind used olds 0 i o hget hok rfl
          (by simpa using hnotused)
          (by
            intro j hj o2 hg2
            intro hcontra
            rcases hcontra with ⟨hk2, _hkd2, hnu2⟩
            simp only [Nat.zero_add] at hnu2
            have hks : o2.key.isSome := by rw [hk2]; rfl
            exact hnu2 (hkeyed j (by omega) o2 hg2 hks))
        simpa using h
      rw [hfind]
      have hrest := ih olds (i + 1) (i :: used) hdrop2
        (by
          intro j hj
          rcases List.mem_cons.mp hj with h | h
          · omega
          · have := hub j h; omega)
        (by
          intro j hj o2 hg2 hks
          rcases Nat.lt_or_ge j i with hlt | hge
          · exact List.mem_cons_of_mem _ (hkeyed j hlt o2 hg2 hks)
          · have : j = i := by omega
            subst this
            exact List.mem_cons_self _ _)
      simp only []
      rw [hrest]
      rw [List.length_cons, List.range'_succ]
      simp

theorem diffChildren_matched :
    ∀ (suffix : List ArenaTree) (olds : List ArenaTree) (i : Nat),
    olds.drop i = suffix →
    (∀ o ∈ suffix, diffT o (declaredOf o) = Patch.empty) →
    diffChildren olds (suffix.map declaredOf)
        ((List.range' i suffix.length).map some) i = Patch.empty := by
  intro suffix
  induction suffix with
  | nil =>
    intro olds i hdrop hIH
    simp [diffChildren]
  | cons o rest ih =>
    intro olds i hdrop hIH
    have hget : olds[i]? = some o := by
      have h0 : (olds.drop i)[0]? = some o := by rw [hdrop]; simp
      rw [List.getElem?_drop] at h0
      simpa using h0
    have hdrop2 : olds.drop (i + 1) = rest := by
      have h1 := List.drop_drop 1 i olds
      rw [hdrop] at h1
      simp at h1
      exact h1.symm
    rw [List.length_cons, List.range'_succ, List.map_cons, List.map_cons]
    rw [diffChildren]
    simp only [hget]
    rw [hIH o (List.mem_cons_self _ _)]
    rw [if_pos trivial]
    rw [ih olds (i + 1) hdrop2 (fun o2 h2 => hIH o2 (List.mem_cons_of_mem _ h2))]
    rfl

theorem diff_identical_bounded (n : Nat) :
    ∀ a : ArenaTree, sizeOf a ≤ n → diffT a (declaredOf a) = Patch.empty := by
  induction n with
  | zero =>
    intro a h
    cases a with
    | mk nid kind key props olds => simp at h
  | succ n ih =>
    intro a hle
    cases a with
    | mk nid kind key props olds =>
      have hIH : ∀ o ∈ olds, diffT o (declaredOf o) = Patch.empty := by
        intro o ho
        apply ih
        have h1 := List.sizeOf_lt_of_mem ho
        simp only [ArenaTree.mk.sizeOf_spec] at hle
        omega
      rw [declaredOf_mk, diffT]
      have hm : computeMatches olds (olds.map declaredOf) 0 []
          = (List.range' 0 olds.length).map some :=
        computeMatches_self olds olds 0 [] (by simp) (by simp)
          (by intro j hj; exact absurd hj (by omega))
      simp only [hm]
      have hrem : removedIds olds ((List.range' 0 olds.length).map some) = [] := by
        rw [removedIds, List.filterMap_eq_nil_iff]
        intro j hj
        rw [List.mem_range] at hj
        rw [if_pos]
        exact List.mem_map.mpr ⟨j, List.mem_range'_1.mpr ⟨by omega, by omega⟩, rfl⟩
      rw [hrem]
      rw [if_pos trivial]
      rw [diffChildren_matched olds olds 0 (by simp) hIH]
      rfl

/-- C3: diffing the arena's previous-frame tree against an identical declared
tree — re-declaring on frame n+1 exactly what was declared on frame n —
produces the empty patch: no insertions, no removals, no property changes and
no moves, for every tree. -/
theorem diff_identical_tree (a : ArenaTree) : diffT a (declaredOf a) = Patch.empty :=
  diff_identical_bounded (sizeOf a) a le_rfl

theorem textFPs_mk (n : NodeId) (kind : Nat) (key : Option Nat)
    (props : List (Nat × Nat)) (children : List ArenaTree) :
    textFPs (.mk n kind key props children)
      = (if kind = textKind then [fingerprintOf kind props] else []) ++
          textFPsList children := by
  rw [textFPs, textFPsList, List.attach_map_coe]

theorem measure_bounded (n : Nat) :
    (∀ (t : ArenaTree) (cache : List Fingerprint), sizeOf t ≤ n →
       (∀ f ∈ cache, f ∈ (measureTree cache t).1) ∧
       (∀ f ∈ textFPs t, f ∈ (measureTree cache t).1) ∧
       ((∀ f ∈ textFPs t, f ∈ cache) → (measureTree cache t).2 = 0)) ∧
    (∀ (ts : List ArenaTree) (cache : List Fingerprint), sizeOf ts ≤ n →
       (∀ f ∈ cache, f ∈ (measureList cache ts).1) ∧
       (∀ f ∈ textFPsList ts, f ∈ (measureList cache ts).1) ∧
       ((∀ f ∈ textFPsList ts, f ∈ cache) → (measureList cache ts).2 = 0)) := by
  induction n with
  | zero =>
    constructor
    · intro t cache hle
      cases t with
      | mk a b c d e => simp at hle
    · intro ts cache hle
      cases ts with
      | nil => simp at hle
      | cons t ts2 => simp at hle
  | succ n ih =>
    constructor
    · intro t cache hle
      cases t with
      | mk nid kind key props children =>
        have hch : sizeOf children ≤ n := by
          simp only [ArenaTree.mk.sizeOf_spec] at hle
          omega
        rw [measureTree]
        rw [textFPs_mk]
        have hstep : ∀ f ∈ cache, f ∈
            (if kind = textKind then
              (if fingerprintOf kind props ∈ cache then (cache, 0)
               else (fingerprintOf kind props :: cache, 1))
             else (cache, (0 : Nat))).1 := by
          intro f hf
          split
          · split
            · exact hf
            · exact List.mem_cons_of_mem _ hf
          · exact hf
        refine ⟨?_, ?_, ?_⟩
        · intro f hf
          exact (ih.2 children _ hch).1 f (hstep f hf)
        · intro f hf
          rcases List.mem_append.mp hf with hl | hr
          · have hfp : f ∈
                (if kind = textKind then
                  (if fingerprintOf kind props ∈ cache then (cache, 0)
                   else (fingerprintOf kind props :: cache, 1))
                 else (cache, (0 : Nat))).1 := by
              split
              · split
                · rename_i htext hhit
                  rw [if_pos htext] at hl
                  rcases List.mem_singleton.mp hl with h
                  rw [h]; exact hhit
                · rename_i htext _hmiss
                  rw [if_pos htext] at hl
                  rcases List.mem_singleton.mp hl with h
                  rw [h]; exact List.mem_cons_self _ _
              · rename_i htext
                rw [if_neg htext] at hl
                simp at hl
            exact (ih.2 children _ hch).1 f hfp
          · exact (ih.2 children _ hch).2.1 f hr
        · intro hall
          have hsub : ∀ f ∈ textFPsList children, f ∈ cache := by
            intro f hf
            exact hall f (List.mem_append.mpr (Or.inr hf))
          split
          · rename_i htext
            have hfpin : fingerprintOf kind props ∈ cache := by
              apply hall
              apply List.mem_append.mpr
              left
              rw [if_pos htext]
              exact List.mem_singleton.mpr rfl
            rw [if_pos hfpin]
            simp only []
            rw [(ih.2 children cache hch).2.2 hsub]
          · simp only []
            rw [(ih.2 children cache hch).2.2 hsub]
    · intro ts cache hle
      cases ts with
      | nil =>
        rw [measureList]
        refine ⟨?_, ?_, ?_⟩
        · intro f hf; exact hf
        · intro f hf; simp [textFPsList] at hf
        · intro _; rfl
      | cons t ts2 =>
        have hszt : sizeOf t ≤ n := by simp at hle; omega
        have hszts : sizeOf ts2 ≤ n := by simp at hle; omega
        rw [measureList]
        have hfps : textFPsList (t :: ts2) = textFPs t ++ textFPsList ts2 := by
          rw [textFPsList, List.map_cons, List.flatten_cons, textFPsList]
        refine ⟨?_, ?_, ?_⟩
        · intro f hf
          exact (ih.2 ts2 _ hszts).1 f ((ih.1 t cache hszt).1 f hf)
        · intro f hf
          rw [hfps] at hf
          rcases List.mem_append.mp hf with hl | hr
          · exact (ih.2 ts2 _ hszts).1 f ((ih.1 t cache hszt).2.1 f hl)
          · exact (ih.2 ts2 _ hszts).2.1 f hr
        · intro hall
          rw [hfps] at hall
          have h1 : (measureTree cache t).2 = 0 :=
            (ih.1 t cache hszt).2.2 (fun f hf => hall f (List.mem_append.mpr (Or.inl hf)))
          have h2 : (measureList (measureTree cache t).1 ts2).2 = 0 := by
            apply (ih.2 ts2 _ hszts).2.2
            intro f hf
            exact (ih.1 t cache hszt).1 f (hall f (List.mem_append.mpr (Or.inr hf)))
          simp only []
          rw [h1, h2]

theorem measureTree_cache_mono (t : ArenaTree) (cache : List Fingerprint) :
    ∀ f ∈ cache, f ∈ (measureTree cache t).1 :=
  ((measure_bounded (sizeOf t)).1 t cache le_rfl).1

theorem measureTree_collects (t : ArenaTree) (cache : List Fingerprint) :
    ∀ f ∈ textFPs t, f ∈ (measureTree cache t).1 :=
  ((measure_bounded (sizeOf t)).1 t cache le_rfl).2.1

theorem measureTree_zero_calls (t : ArenaTree) (cache : List Fingerprint)
    (h : ∀ f ∈ textFPs t, f ∈ cache) : (measureTree cache t).2 = 0 :=
  ((measure_bounded (sizeOf t)).1 t cache le_rfl).2.2 h

theorem measureList_cache_mono (ts : List ArenaTree) (cache : List Fingerprint) :
    ∀ f ∈ cache, f ∈ (measureList cache ts).1 :=
  ((measure_bounded (sizeOf ts)).2 ts cache le_rfl).1

theorem measureList_collects (ts : List ArenaTree) (cache : List Fingerprint) :
    ∀ f ∈ textFPsList ts, f ∈ (measureList cache ts).1 :=
  ((measure_bounded (sizeOf ts)).2 ts cache le_rfl).2.1

theorem measureList_zero_calls (ts : List ArenaTree) (cache : List Fingerprint)
    (h : ∀ f ∈ textFPsList ts, f ∈ cache) : (measureList cache ts).2 = 0 :=
  ((measure_bounded (sizeOf ts)).2 ts cache le_rfl).2.2 h

/-- C8: a text node whose content and measurement-relevant style are unchanged
between frame n and frame n+1 is not re-measured on frame n+1: the
`changed_props` invalidation leaves the Frame Cache untouched because the
fingerprint is unchanged (a color-only change does not invalidate), and the
measurement pass over the frame-n+1 node performs zero external `measure`
calls — its fingerprint hits the entry cached on frame n. -/
theorem unchanged_text_zero_measure_calls (nid nid2 : NodeId)
    (key key2 : Option Nat) (oldProps newProps : List (Nat × Nat))
    (cache : List Fingerprint)
    (hfp : fingerprintOf textKind oldProps = fingerprintOf textKind newProps) :
    invalidateForChange
        ((measureTree cache (.mk nid textKind key oldProps [])).1)
        textKind oldProps newProps
      = (measureTree cache (.mk nid textKind key oldProps [])).1 ∧
    (measureTree
        (invalidateForChange
          ((measureTree cache (.mk nid textKind key oldProps [])).1)
          textKind oldProps newProps)
        (.mk nid2 textKind key2 newProps [])).2 = 0 := by
  have hinv : invalidateForChange
      ((measureTree cache (.mk nid textKind key oldProps [])).1)
      textKind oldProps newProps
      = (measureTree cache (.mk nid textKind key oldProps [])).1 := by
    rw [invalidateForChange, if_pos hfp]
  refine ⟨hinv, ?_⟩
  rw [hinv]
  apply measureTree_zero_calls
  intro f hf
  rw [textFPs_mk, if_pos rfl] at hf
  simp only [textFPsList, List.map_nil, List.flatten_nil, List.append_nil,
    List.mem_singleton] at hf
  subst hf
  rw [← hfp]
  apply measureTree_collects
  rw [textFPs_mk, if_pos rfl]
  simp [textFPsList]

theorem unchanged_text_zero_measure_calls_witness :
    fingerprintOf textKind [(textContentProp, 42), (colorProp, 1)]
      = fingerprintOf textKind [(textContentProp, 42), (colorProp, 2)] ∧
    ¬ ([((textContentProp : Nat), (42 : Nat)), (colorProp, 1)]
        = [(textContentProp, 42), (colorProp, 2)]) ∧
    (measureTree
        (invalidateForChange
          ((measureTree []
            (.mk ⟨0, 0⟩ textKind none [(textContentProp, 42), (colorProp, 1)] [])).1)
          textKind [(textContentProp, 42), (colorProp, 1)]
          [(textContentProp, 42), (colorProp, 2)])
        (.mk ⟨0, 0⟩ textKind none [(textContentProp, 42), (colorProp, 2)] [])).2 = 0 := by
  have hfp : fingerprintOf textKind [(textContentProp, 42), (colorProp, 1)]
      = fingerprintOf textKind [(textContentProp, 42), (colorProp, 2)] := by
    decide
  have h := unchanged_text_zero_measure_calls ⟨0, 0⟩ ⟨0, 0⟩ none none
    [(textContentProp, 42), (colorProp, 1)] [(textContentProp, 42), (colorProp, 2)]
    [] hfp
  exact ⟨hfp, by decide, h.2⟩

theorem get_mem_self (l : List ArenaTree) (j : Fin l.length) : l.get j ∈ l := by
  simp [List.get_eq_getElem]

theorem getElem?_eq_get (l : List ArenaTree) (j : Fin l.length) :
    l[(j : Nat)]? = some (l.get j) := by
  rw [List.getElem?_eq_getElem j.isLt]
  simp [List.get_eq_getElem]

theorem computeMatches_keyed_perm (olds : List ArenaTree)
    (hkeys : ∀ o ∈ olds, o.key.isSome)
    (hinj : ∀ j1 j2 : Fin olds.length,
      (olds.get j1).key = (olds.get j2).key → j1 = j2) :
    ∀ (perm : List (Fin olds.length)) (i : Nat) (used : List Nat),
    perm.Nodup →
    (∀ j ∈ perm, ¬ (j : Nat) ∈ used) →
    computeMatches olds (perm.map (fun j => declaredOf (olds.get j))) i used
      = perm.map (fun j => some j.val) := by
  intro perm
  induction perm with
  | nil =>
    intro i used _h1 _h2
    simp [computeMatches]
  | cons jp rest ih =>
    intro i used hnodup husedfree
    have hjpfree : ¬ ((jp : Nat)) ∈ used :=
      husedfree jp (List.mem_cons_self _ _)
    obtain ⟨k, hk⟩ : ∃ k, (olds.get jp).key = some k := by
      have h := hkeys (olds.get jp) (get_mem_self olds jp)
      cases hh : (olds.get jp).key with
      | none => rw [hh] at h; simp at h
      | some k2 => exact ⟨k2, rfl⟩
    rw [List.map_cons, computeMatches]
    simp only [declaredOf_key, declaredOf_kind, hk]
    have hfind : findKeyMatch used k (olds.get jp).kind olds 0 = some (jp : Nat) := by
      have h := findKeyMatch_first k (olds.get jp).kind used olds 0 (jp : Nat)
        (olds.get jp) (getElem?_eq_get olds jp) hk rfl
        (by simpa using hjpfree)
        (by
          intro j hj o2 hg2 hcontra
          rcases hcontra with ⟨hk2, _hkd2, _hnu2⟩
          have hjlt : j < olds.length := lt_trans hj jp.isLt
          have hg3 : olds[j]? = some (olds.get ⟨j, hjlt⟩) :=
            getElem?_eq_get olds ⟨j, hjlt⟩
          rw [hg3, Option.some_inj] at hg2
          subst hg2
          have heq : (⟨j, hjlt⟩ : Fin olds.length) = jp :=
            hinj ⟨j, hjlt⟩ jp (by rw [hk2, hk])
          have : j = (jp : Nat) := congrArg Fin.val heq
          omega)
      simpa using h
    rw [hfind]
    simp only []
    have hrest := ih (i + 1) ((jp : Nat) :: used)
      (List.nodup_cons.mp hnodup).2
      (by
        intro j hj
        intro hmem
        rcases List.mem_cons.mp hmem with h | h
        · have : j = jp := Fin.ext h
          subst this
          exact (List.nodup_cons.mp hnodup).1 hj
        · exact husedfree j (List.mem_cons_of_mem _ hj) h)
    rw [List.map_cons, hrest]

theorem textFPsList_mem (ts : List ArenaTree) (t : ArenaTree) (f : Fingerprint)
    (ht : t ∈ ts) (hf : f ∈ textFPs t) : f ∈ textFPsList ts := by
  rw [textFPsList, List.mem_flatten]
  exact ⟨textFPs t, List.mem_map.mpr ⟨t, ht, rfl⟩, hf⟩

/-- C4: reordering a sibling list whose nodes all carry pairwise-distinct
stable keys preserves each node's arena identity and its Frame Cache entries:
the differ matches the declared child at each new position to precisely the
previous-frame node that carried that key (so each node keeps its generational
identifier), and the measurement pass over the reordered siblings, against the
cache produced on the previous frame, performs zero external `measure` calls —
no unchanged text is re-measured. -/
theorem keyed_reorder_preserves (olds : List ArenaTree)
    (perm : List (Fin olds.length)) (cache : List Fingerprint)
    (hnodup : perm.Nodup)
    (hkeys : ∀ o ∈ olds, o.key.isSome)
    (hinj : ∀ j1 j2 : Fin olds.length,
      (olds.get j1).key = (olds.get j2).key → j1 = j2) :
    computeMatches olds (perm.map (fun j => declaredOf (olds.get j))) 0 []
        = perm.map (fun j => some j.val) ∧
    (computeMatches olds (perm.map (fun j => declaredOf (olds.get j))) 0 []).map
        (fun m => m.bind (fun j => (olds[j]?).map ArenaTree.nid))
        = perm.map (fun j => some (olds.get j).nid) ∧
    (measureList ((measureList cache olds).1)
        (perm.map (fun j => olds.get j))).2 = 0 := by
  have h1 := computeMatches_keyed_perm olds hkeys hinj perm 0 []
    hnodup (by intro j _hj hmem; simp at hmem)
  refine ⟨h1, ?_, ?_⟩
  · rw [h1, List.map_map]
    apply List.map_congr_left
    intro j _hj
    simp [getElem?_eq_get olds j]
  · apply measureList_zero_calls
    intro f hf
    rw [textFPsList, List.mem_flatten] at hf
    obtain ⟨l, hl, hfl⟩ := hf
    rw [List.map_map, List.mem_map] at hl
    obtain ⟨j, _hj, rfl⟩ := hl
    apply measureList_collects
    exact textFPsList_mem olds (olds.get j) f (get_mem_self olds j) hfl

theorem keyed_reorder_preserves_witness :
    computeMatches demoOlds (demoPerm.map (fun j => declaredOf (demoOlds.get j))) 0 []
        = demoPerm.map (fun j => some j.val) ∧
    (measureList ((measureList [] demoOlds).1)
        (demoPerm.map (fun j => demoOlds.get j))).2 = 0 := by
  have h := keyed_reorder_preserves demoOlds demoPerm []
    (by decide) (by decide) (by decide)
  exact ⟨h.1, h.2.2⟩

end Azul
